import Mathlib

/-!
Verification of the blockchain-ts repository core: the transaction integrity
model (src/transaction.ts), the block hashing and mining mechanism
(src/block.ts), and the chain construction and validation algorithm
(src/blockchain.ts).

The development is a shallow embedding. JavaScript numbers carrying monetary
amounts are modelled as rationals, timestamps and indices as naturals, and
the SHA-256 digest primitive (an opaque library call in the source) is a
parameter H : String -> String of every hash-dependent definition. External
inputs that the source obtains from the environment (Date.now timestamps,
Math.random transaction nonces) are threaded as explicit arguments. The
unbounded proof-of-work loop is given explicit fuel; exhausting the fuel
models the non-terminating execution, in which no state change is observed.
Exceptions are modelled with Except, paired with the post-call state so that
mutation-before-throw is observable.
-/

set_option maxRecDepth 40000

namespace BlockchainTS

/-! ## Decimal numerals

JavaScript stringifies the numeric fields (index, timestamp, nonce, amount)
before hashing.  These serializers model Number.prototype.toString for the
values the program actually produces, and are proved injective so that the
digest-collision analysis of the block serialization is exact. -/

/-- Character for a single decimal digit. -/
def digitChar (d : Nat) : Char := Char.ofNat (48 + d)

/-- Worker for natChars: the first argument is structural fuel, kept above
the value so that the definition reduces inside the kernel. -/
def natCharsAux : Nat → Nat → List Char
  | 0, _ => []
  | f + 1, n =>
    if n < 10 then [digitChar n]
    else natCharsAux f (n / 10) ++ [digitChar (n % 10)]

/-- Decimal numeral of a natural number, most significant digit first,
as produced by JavaScript number-to-string conversion on naturals. -/
def natChars (n : Nat) : List Char := natCharsAux (n + 1) n

theorem natCharsAux_congr :
    ∀ (n fuel fuel2 : Nat), n < fuel → n < fuel2 →
      natCharsAux fuel n = natCharsAux fuel2 n := by
  intro n
  induction n using Nat.strong_induction_on with
  | _ n ih =>
    intro fuel fuel2 hf hf2
    cases fuel with
    | zero => omega
    | succ f =>
      cases fuel2 with
      | zero => omega
      | succ f2 =>
        rw [natCharsAux, natCharsAux]
        by_cases h10 : n < 10
        · rw [if_pos h10, if_pos h10]
        · rw [if_neg h10, if_neg h10]
          have hdiv : n / 10 < n := Nat.div_lt_self (by omega) (by omega)
          rw [ih (n / 10) hdiv f f2 (by omega) (by omega)]

theorem natChars_eq (n : Nat) :
    natChars n =
      if n < 10 then [digitChar n] else natChars (n / 10) ++ [digitChar (n % 10)] := by
  show natCharsAux (n + 1) n = _
  rw [natCharsAux]
  split
  · rfl
  · next h10 =>
    have hdiv : n / 10 < n := Nat.div_lt_self (by omega) (by omega)
    rw [natCharsAux_congr (n / 10) n (n / 10 + 1) (by omega) (by omega)]
    rfl

/-- Numeric value of a digit list, used only to invert natChars. -/
def digitsVal (acc : Nat) : List Char → Nat
  | [] => acc
  | c :: cs => digitsVal (10 * acc + (c.toNat - 48)) cs

theorem digitsVal_nil (acc : Nat) : digitsVal acc [] = acc := rfl

theorem digitsVal_cons (acc : Nat) (c : Char) (cs : List Char) :
    digitsVal acc (c :: cs) = digitsVal (10 * acc + (c.toNat - 48)) cs := rfl

theorem digitsVal_append (acc : Nat) (xs ys : List Char) :
    digitsVal acc (xs ++ ys) = digitsVal (digitsVal acc xs) ys := by
  induction xs generalizing acc with
  | nil => rfl
  | cons c cs ih => rw [List.cons_append, digitsVal_cons, digitsVal_cons, ih]

theorem digitChar_toNat (d : Nat) (h : d < 10) : (digitChar d).toNat = 48 + d := by
  interval_cases d <;> rfl

theorem natChars_len_pos (n : Nat) : 0 < (natChars n).length := by
  rw [natChars_eq]
  split <;> simp

theorem digitsVal_natChars (acc : Nat) (n : Nat) :
    digitsVal acc (natChars n) = acc * 10 ^ (natChars n).length + n := by
  induction n using Nat.strong_induction_on generalizing acc with
  | _ n ih =>
    rw [natChars_eq]
    split
    · next h =>
      rw [digitsVal_cons, digitsVal_nil, digitChar_toNat n h]
      simp
      omega
    · next h =>
      rw [digitsVal_append]
      have hrec := ih (n / 10) (Nat.div_lt_self (by omega) (by omega)) acc
      rw [hrec, digitsVal_cons, digitsVal_nil,
        digitChar_toNat (n % 10) (Nat.mod_lt _ (by omega))]
      simp [pow_succ]
      ring_nf
      omega

theorem natChars_injective : Function.Injective natChars := by
  intro m n h
  have hm := digitsVal_natChars 0 m
  have hn := digitsVal_natChars 0 n
  rw [h] at hm
  omega

/-- Every character of a decimal numeral is a digit character. -/
theorem natChars_digits (n : Nat) :
    ∀ c ∈ natChars n, ∃ d, d < 10 ∧ c = digitChar d := by
  induction n using Nat.strong_induction_on with
  | _ n ih =>
    rw [natChars_eq]
    split
    · next h =>
      intro c hc
      simp at hc
      exact ⟨n, h, hc⟩
    · next h =>
      intro c hc
      simp at hc
      rcases hc with hc | hc
      · exact ih (n / 10) (Nat.div_lt_self (by omega) (by omega)) c hc
      · exact ⟨n % 10, Nat.mod_lt _ (by omega), hc⟩

theorem digitChar_ne (d : Nat) (h : d < 10) (c : Char) (hc : c.toNat < 48 ∨ 57 < c.toNat) :
    digitChar d ≠ c := by
  intro he
  have := digitChar_toNat d h
  rw [he] at this
  omega

theorem natChars_not_mem (n : Nat) (c : Char) (hc : c.toNat < 48 ∨ 57 < c.toNat) :
    c ∉ natChars n := by
  intro hmem
  rcases natChars_digits n c hmem with ⟨d, hd, rfl⟩
  have := digitChar_toNat d hd
  omega

/-- Decimal numeral of an integer, as produced by JavaScript. -/
def intChars (i : Int) : List Char :=
  if i < 0 then '-' :: natChars i.natAbs else natChars i.toNat

theorem dash_toNat : ('-').toNat = 45 := by decide

theorem slash_toNat : ('/').toNat = 47 := by decide

theorem dash_not_digit (n : Nat) : '-' ∉ natChars n := by
  intro hmem
  rcases natChars_digits n '-' hmem with ⟨d, hd, he⟩
  have h1 := digitChar_toNat d hd
  rw [← he, dash_toNat] at h1
  omega

theorem intChars_injective : Function.Injective intChars := by
  intro m n h
  unfold intChars at h
  split at h <;> split at h
  · next hm hn =>
    simp at h
    have := natChars_injective h
    omega
  · next hm hn =>
    exfalso
    exact dash_not_digit n.toNat (h ▸ List.mem_cons_self _ _)
  · next hm hn =>
    exfalso
    exact dash_not_digit m.toNat (h ▸ List.mem_cons_self _ _)
  · next hm hn =>
    have := natChars_injective h
    omega

theorem intChars_mem (i : Int) (c : Char) (hc : c ∈ intChars i) :
    c = '-' ∨ ∃ d, d < 10 ∧ c = digitChar d := by
  unfold intChars at hc
  split at hc
  · simp at hc
    rcases hc with hc | hc
    · exact Or.inl hc
    · exact Or.inr (natChars_digits _ c hc)
  · exact Or.inr (natChars_digits _ c hc)

/-- Serialization of a JavaScript numeric amount.  Amounts are modelled as
rationals; integral values print exactly as JavaScript prints them, and
non-integral values print as an explicit fraction, which keeps the
serialization injective (the property the digest construction relies on). -/
def ratChars (q : ℚ) : List Char :=
  if q.den = 1 then intChars q.num else intChars q.num ++ '/' :: natChars q.den

theorem slash_not_digit_aux (c : Char) (hc : c = '-' ∨ ∃ d, d < 10 ∧ c = digitChar d) :
    c ≠ '/' := by
  rcases hc with rfl | ⟨d, hd, rfl⟩
  · decide
  · have h1 := digitChar_toNat d hd
    intro he
    rw [he, slash_toNat] at h1
    omega

theorem slash_not_mem_intChars (i : Int) : '/' ∉ intChars i := by
  intro hmem
  exact slash_not_digit_aux '/' (intChars_mem i '/' hmem) rfl

/-- Splitting at a delimiter character that occurs in neither prefix is
unambiguous; this is the free-monoid fact behind every delimiter in the
transaction serialization. -/
theorem append_delim_inj (d : Char) :
    ∀ (x y u v : List Char), d ∉ x → d ∉ y →
      x ++ d :: u = y ++ d :: v → x = y ∧ u = v := by
  intro x
  induction x with
  | nil =>
    intro y u v _ hy h
    cases y with
    | nil => simpa using h
    | cons c ys =>
      simp at h
      exfalso
      exact hy (h.1 ▸ List.mem_cons_self c ys)
  | cons c xs ih =>
    intro y u v hx hy h
    cases y with
    | nil =>
      simp at h
      exfalso
      exact hx (h.1 ▸ List.mem_cons_self c xs)
    | cons b ys =>
      simp at h
      obtain ⟨rfl, h2⟩ := h
      have hx2 : d ∉ xs := fun hm => hx (List.mem_cons_of_mem _ hm)
      have hy2 : d ∉ ys := fun hm => hy (List.mem_cons_of_mem _ hm)
      obtain ⟨rfl, rfl⟩ := ih ys u v hx2 hy2 h2
      exact ⟨rfl, rfl⟩

theorem ratChars_injective : Function.Injective ratChars := by
  intro p q h
  unfold ratChars at h
  split at h <;> split at h
  · next hp hq =>
    have := intChars_injective h
    exact Rat.ext this (hp.trans hq.symm)
  · next hp hq =>
    exfalso
    have : '/' ∈ intChars p.num := by
      rw [h]
      simp
    exact slash_not_mem_intChars p.num this
  · next hp hq =>
    exfalso
    have : '/' ∈ intChars q.num := by
      rw [← h]
      simp
    exact slash_not_mem_intChars q.num this
  · next hp hq =>
    obtain ⟨h1, h2⟩ := append_delim_inj '/' _ _ _ _
      (slash_not_mem_intChars p.num) (slash_not_mem_intChars q.num) h
    exact Rat.ext (intChars_injective h1) (natChars_injective h2)

/-! ## JSON string escaping

Models the escaping JSON.stringify applies to string values.  The quote and
backslash escapes are the ones that make the encoding uniquely decodable,
which is what the digest analysis needs; escapes of rare control characters
add nothing to that analysis and are left literal. -/

def escChar (c : Char) : List Char :=
  if c = '"' then ['\\', '"'] else if c = '\\' then ['\\', '\\'] else [c]

def escChars : List Char → List Char
  | [] => []
  | c :: cs => escChar c ++ escChars cs

theorem escChars_nil : escChars [] = [] := rfl

theorem escChars_cons (c : Char) (cs : List Char) :
    escChars (c :: cs) = escChar c ++ escChars cs := rfl

theorem escChar_cases (c : Char) :
    (c = '"' ∧ escChar c = ['\\', '"']) ∨ (c = '\\' ∧ escChar c = ['\\', '\\']) ∨
      (c ≠ '"' ∧ c ≠ '\\' ∧ escChar c = [c]) := by
  unfold escChar
  by_cases h1 : c = '"'
  · simp [h1]
  · by_cases h2 : c = '\\'
    · simp [h1, h2]
    · simp [h1, h2]

/-- Decoder for a JSON string-literal body: consumes escaped content up to
the first unescaped closing quote.  Used only to invert escChars. -/
def unescape : List Char → Option (List Char × List Char)
  | [] => none
  | [c] => if c = '"' then some ([], []) else none
  | c :: d :: rest =>
    if c = '"' then some ([], d :: rest)
    else if c = '\\' then (unescape rest).map (fun p => (d :: p.1, p.2))
    else (unescape (d :: rest)).map (fun p => (c :: p.1, p.2))

theorem unescape_one (c : Char) :
    unescape [c] = if c = '"' then some ([], []) else none := rfl

theorem unescape_cons2 (c d : Char) (rest : List Char) :
    unescape (c :: d :: rest) =
      if c = '"' then some ([], d :: rest)
      else if c = '\\' then (unescape rest).map (fun p => (d :: p.1, p.2))
      else (unescape (d :: rest)).map (fun p => (c :: p.1, p.2)) := rfl

theorem unescape_quote (u : List Char) : unescape ('"' :: u) = some ([], u) := by
  cases u with
  | nil => rw [unescape_one]; simp
  | cons d rest => rw [unescape_cons2]; simp

theorem unescape_escChars (s : List Char) (u : List Char) :
    unescape (escChars s ++ '"' :: u) = some (s, u) := by
  induction s with
  | nil =>
    rw [escChars_nil, List.nil_append, unescape_quote]
  | cons c cs ih =>
    rw [escChars_cons]
    rcases escChar_cases c with ⟨hc, he⟩ | ⟨hc, he⟩ | ⟨hc1, hc2, he⟩ <;> rw [he]
    · subst hc
      simp only [List.cons_append, List.singleton_append, List.nil_append]
      rw [unescape_cons2]
      simp [ih]
    · subst hc
      simp only [List.cons_append, List.singleton_append, List.nil_append]
      rw [unescape_cons2]
      simp [ih]
    · simp only [List.cons_append, List.singleton_append, List.nil_append]
      have hne : escChars cs ++ '"' :: u ≠ [] := by simp
      rcases hsp : escChars cs ++ '"' :: u with _ | ⟨d, rest⟩
      · exact absurd hsp hne
      · rw [unescape_cons2, if_neg hc1, if_neg hc2, ← hsp, ih]
        rfl

/-- A JSON string literal is delimited by its closing quote: the escaped body
and whatever follows the literal are both determined. -/
theorem escChars_quote_inj (s t u v : List Char)
    (h : escChars s ++ '"' :: u = escChars t ++ '"' :: v) : s = t ∧ u = v := by
  have hs := unescape_escChars s u
  have ht := unescape_escChars t v
  rw [h, ht] at hs
  simp at hs
  exact ⟨hs.1.symm, hs.2.symm⟩

/-! ## Transactions (src/transaction.ts)

A Transaction value carries the two address strings, the amount, the
construction timestamp, the random uniqueness nonce, the live digest and the
frozen original digest.  The live digest and original digest are stored
strings; Transaction.isValid never recomputes a digest, it compares these two
stored fields. -/

structure Transaction where
  fromAddress : String
  toAddress : String
  amount : ℚ
  timestamp : Nat
  nonce : String
  hash : String
  originalHash : String
deriving DecidableEq, Repr

theorem string_data_inj {a b : String} (h : a.data = b.data) : a = b := by
  cases a
  cases b
  exact congrArg String.mk h

/-! ## JSON serialization of transactions

Block.calculateHash serializes its transaction array with JSON.stringify.
The fields of each transaction object appear in declaration order; string
values are quoted and escaped, numeric values are printed bare. -/

/-- JSON.stringify of one Transaction object, as a character list. -/
def jsonTxChars (t : Transaction) : List Char :=
  ("\x7b\"_amount\":").data ++ (ratChars t.amount ++
    ((",\"_nonce\":\"").data ++ (escChars t.nonce.data ++
      (("\",\"_originalHash\":\"").data ++ (escChars t.originalHash.data ++
        (("\",\"fromAddress\":\"").data ++ (escChars t.fromAddress.data ++
          (("\",\"toAddress\":\"").data ++ (escChars t.toAddress.data ++
            (("\",\"timestamp\":").data ++ (natChars t.timestamp ++
              ((",\"hash\":\"").data ++ (escChars t.hash.data ++
                ("\"\x7d").data)))))))))))))

theorem litNonce_eq : ((",\"_nonce\":\"").data) = ',' :: (("\"_nonce\":\"").data) := rfl

theorem litOrig_eq :
    (("\",\"_originalHash\":\"").data) = '"' :: ((",\"_originalHash\":\"").data) := rfl

theorem litFrom_eq :
    (("\",\"fromAddress\":\"").data) = '"' :: ((",\"fromAddress\":\"").data) := rfl

theorem litTo_eq :
    (("\",\"toAddress\":\"").data) = '"' :: ((",\"toAddress\":\"").data) := rfl

theorem litTs_eq :
    (("\",\"timestamp\":").data) = '"' :: ((",\"timestamp\":").data) := rfl

theorem litHash_eq : ((",\"hash\":\"").data) = ',' :: (("\"hash\":\"").data) := rfl

theorem litEnd_eq : (("\"\x7d").data) = '"' :: '}' :: [] := rfl

theorem comma_not_mem_natChars (n : Nat) : ',' ∉ natChars n :=
  natChars_not_mem n ',' (Or.inl (by decide))

theorem comma_not_mem_ratChars (q : ℚ) : ',' ∉ ratChars q := by
  intro hmem
  unfold ratChars at hmem
  have hint : ∀ i : Int, ',' ∉ intChars i := by
    intro i hm
    rcases intChars_mem i ',' hm with hd | ⟨d, hd, he⟩
    · exact absurd hd (by decide)
    · have := digitChar_toNat d hd
      rw [← he] at this
      have hc : (',').toNat = 44 := by decide
      omega
  split at hmem
  · exact hint _ hmem
  · rcases List.mem_append.mp hmem with hm | hm
    · exact hint _ hm
    · rcases List.mem_cons.mp hm with he | hm2
      · exact absurd he (by decide)
      · exact comma_not_mem_natChars _ hm2

/-- One serialized transaction followed by arbitrary material determines both
the transaction and the material: the object layout is uniquely parseable. -/
theorem jsonTxChars_suffix_inj (t u : Transaction) (X Y : List Char)
    (h : jsonTxChars t ++ X = jsonTxChars u ++ Y) : t = u ∧ X = Y := by
  unfold jsonTxChars at h
  simp only [List.append_assoc, List.cons_append, List.nil_append] at h
  simp only [List.cons.injEq, eq_self_iff_true, true_and] at h
  obtain ⟨hAmt, h2⟩ := append_delim_inj ',' _ _ _ _
    (comma_not_mem_ratChars _) (comma_not_mem_ratChars _) h
  simp only [List.cons.injEq, eq_self_iff_true, true_and] at h2
  obtain ⟨hNonce, h4⟩ := escChars_quote_inj _ _ _ _ h2
  simp only [List.cons.injEq, eq_self_iff_true, true_and] at h4
  obtain ⟨hOrig, h6⟩ := escChars_quote_inj _ _ _ _ h4
  simp only [List.cons.injEq, eq_self_iff_true, true_and] at h6
  obtain ⟨hFrom, h8⟩ := escChars_quote_inj _ _ _ _ h6
  simp only [List.cons.injEq, eq_self_iff_true, true_and] at h8
  obtain ⟨hTo, h10⟩ := escChars_quote_inj _ _ _ _ h8
  simp only [List.cons.injEq, eq_self_iff_true, true_and] at h10
  obtain ⟨hTs, h12⟩ := append_delim_inj ',' _ _ _ _
    (comma_not_mem_natChars _) (comma_not_mem_natChars _) h10
  simp only [List.cons.injEq, eq_self_iff_true, true_and] at h12
  obtain ⟨hHash, h14⟩ := escChars_quote_inj _ _ _ _ h12
  simp only [List.cons.injEq, eq_self_iff_true, true_and] at h14
  refine ⟨?_, h14⟩
  cases t
  cases u
  simp only [Transaction.mk.injEq]
  exact ⟨string_data_inj hFrom, string_data_inj hTo, ratChars_injective hAmt,
    natChars_injective hTs, string_data_inj hNonce, string_data_inj hHash,
    string_data_inj hOrig⟩

/-- Comma-separated bodies of the serialized transaction array. -/
def elemsChars : List Transaction → List Char
  | [] => []
  | [t] => jsonTxChars t
  | t :: u :: ts => jsonTxChars t ++ ',' :: elemsChars (u :: ts)

/-- JSON.stringify of a transaction array, as a character list. -/
def jsonTxsChars (l : List Transaction) : List Char := '[' :: (elemsChars l ++ [']'])

theorem jsonTxChars_head (t : Transaction) :
    ∃ r, jsonTxChars t = '{' :: r := by
  exact ⟨_, rfl⟩

/-- The serialized array is delimited by its closing bracket: both the list
of transactions and whatever follows are determined. -/
theorem elemsChars_bracket_inj : ∀ (l m : List Transaction) (X Y : List Char),
    elemsChars l ++ ']' :: X = elemsChars m ++ ']' :: Y → l = m ∧ X = Y := by
  intro l
  induction l with
  | nil =>
    intro m X Y h
    cases m with
    | nil => simpa using h
    | cons b bs =>
      exfalso
      obtain ⟨r, hr⟩ := jsonTxChars_head b
      cases bs with
      | nil =>
        rw [elemsChars, elemsChars, hr] at h
        simp at h
      | cons b2 bs2 =>
        rw [elemsChars, elemsChars, hr] at h
        simp at h
  | cons a as ih =>
    intro m X Y h
    cases m with
    | nil =>
      exfalso
      obtain ⟨r, hr⟩ := jsonTxChars_head a
      cases as with
      | nil =>
        rw [elemsChars, elemsChars, hr] at h
        simp at h
      | cons a2 as2 =>
        rw [elemsChars, elemsChars, hr] at h
        simp at h
    | cons b bs =>
      cases as with
      | nil =>
        cases bs with
        | nil =>
          rw [elemsChars, elemsChars] at h
          obtain ⟨h1, h2⟩ := jsonTxChars_suffix_inj a b _ _ h
          simp at h2
          exact ⟨by rw [h1], h2⟩
        | cons b2 bs2 =>
          exfalso
          rw [elemsChars, elemsChars] at h
          simp only [List.append_assoc, List.cons_append] at h
          obtain ⟨h1, h2⟩ := jsonTxChars_suffix_inj a b _ _ h
          simp at h2
      | cons a2 as2 =>
        cases bs with
        | nil =>
          exfalso
          rw [elemsChars, elemsChars] at h
          simp only [List.append_assoc, List.cons_append] at h
          obtain ⟨h1, h2⟩ := jsonTxChars_suffix_inj a b _ _ h
          simp at h2
        | cons b2 bs2 =>
          rw [elemsChars, elemsChars] at h
          simp only [List.append_assoc, List.cons_append] at h
          obtain ⟨h1, h2⟩ := jsonTxChars_suffix_inj a b _ _ h
          simp only [List.cons.injEq, eq_self_iff_true, true_and] at h2
          obtain ⟨h3, h4⟩ := ih (b2 :: bs2) X Y h2
          exact ⟨by rw [h1, h3], h4⟩

theorem jsonTxsChars_injective : Function.Injective jsonTxsChars := by
  intro l m h
  unfold jsonTxsChars at h
  simp only [List.cons.injEq, eq_self_iff_true, true_and] at h
  have h2 : elemsChars l ++ ']' :: [] = elemsChars m ++ ']' :: [] := by
    simpa using h
  exact (elemsChars_bracket_inj l m [] [] h2).1

/-! ## Transaction operations (src/transaction.ts)

The SHA-256 primitive is the parameter H.  Date.now() and the Math.random
nonce are threaded as explicit arguments. -/

/-- String form of a natural number. -/
def natStr (n : Nat) : String := String.mk (natChars n)

/-- String form of an amount. -/
def ratStr (q : ℚ) : String := String.mk (ratChars q)

/-- Transaction.isValidAmount: a number, not NaN, finite, strictly positive,
at most Number.MAX_SAFE_INTEGER.  NaN and the infinities have no rational
representative, so only the positivity and ceiling checks remain. -/
def isValidAmount (amount : ℚ) : Bool :=
  decide (0 < amount ∧ amount ≤ 9007199254740991)

/-- Transaction.calculateHash input: the five fields joined with the pipe
delimiter. -/
def txData (fromAddress toAddress : String) (amount : ℚ) (timestamp : Nat)
    (nonce : String) : String :=
  String.intercalate "|"
    [fromAddress, toAddress, ratStr amount, natStr timestamp, nonce]

/-- Transaction.calculateHash. -/
def txCalculateHash (H : String → String) (t : Transaction) : String :=
  H (txData t.fromAddress t.toAddress t.amount t.timestamp t.nonce)

/-- Transaction constructor.  Source order: amount validated first, then the
address-presence check, then fields are assigned, the digest computed, and a
copy frozen as the original digest. -/
def mkTransaction (H : String → String) (fromAddress toAddress : String)
    (amount : ℚ) (now : Nat) (nonce : String) : Except String Transaction :=
  if !isValidAmount amount then .error "Invalid transaction amount"
  else if fromAddress = "" ∨ toAddress = "" then
    .error "Both fromAddress and toAddress are required"
  else
    let t0 : Transaction :=
      { fromAddress, toAddress, amount, timestamp := now, nonce,
        hash := "", originalHash := "" }
    let hv := txCalculateHash H t0
    .ok { t0 with hash := hv, originalHash := hv }

/-- Transaction amount setter: validates, mutates the amount and recomputes
the live digest; the original digest is untouched. -/
def setAmount (H : String → String) (t : Transaction) (value : ℚ) :
    Except String Transaction :=
  if !isValidAmount value then .error "Invalid transaction amount"
  else
    let t1 : Transaction := { t with amount := value }
    .ok { t1 with hash := txCalculateHash H t1 }

/-- Transaction.isValid: amount validity, the address rule with the
empty-sender special case, and live digest equal to original digest.  No
digest is recomputed here; the two stored digests are compared. -/
def txIsValid (t : Transaction) : Bool :=
  if !isValidAmount t.amount then false
  else if t.fromAddress = "" then
    if t.toAddress = "" then false else decide (t.hash = t.originalHash)
  else if t.toAddress = "" then false
  else decide (t.hash = t.originalHash)

/-- Transaction.makeInvalid: sets the amount to an invalid sentinel without
recomputing the digest (test back-door in the source). -/
def makeInvalid (t : Transaction) : Transaction := { t with amount := -1 }

/-! ## Blocks (src/block.ts) -/

structure Block where
  index : Nat
  timestamp : Nat
  transactions : List Transaction
  previousHash : String
  hash : String
  nonce : Nat
deriving DecidableEq, Repr

/-- Block.calculateHash input: undelimited concatenation of index,
previousHash, timestamp, JSON.stringify of the transaction array, and the
mining nonce.  The stored block digest is not part of the input. -/
def blockData (b : Block) : String :=
  String.mk (natChars b.index ++ b.previousHash.data ++ natChars b.timestamp ++
    jsonTxsChars b.transactions ++ natChars b.nonce)

/-- Block.calculateHash. -/
def calculateHash (H : String → String) (b : Block) : String := H (blockData b)

/-- Block constructor.  The transaction list is stored as a copy (value
semantics are native here); the digest argument is used only when it is a
truthy string, so an absent argument and the empty string both trigger an
immediate digest computation. -/
def mkBlock (H : String → String) (index : Nat) (previousHash : String)
    (transactions : List Transaction) (nonce : Nat) (hash? : Option String)
    (now : Nat) : Block :=
  let base : Block :=
    { index, timestamp := now, transactions, previousHash, nonce, hash := "" }
  match hash? with
  | some h => if h = "" then { base with hash := calculateHash H base } else { base with hash := h }
  | none => { base with hash := calculateHash H base }

/-- Block.isValid: stored digest must match the recomputed digest, and every
contained transaction (each exposes an isValid method) must be valid. -/
def blockIsValid (H : String → String) (b : Block) : Bool :=
  if b.hash ≠ calculateHash H b then false
  else b.transactions.all (fun t => txIsValid t)

/-! ## The Ledger (src/blockchain.ts)

State is the chain, the difficulty and the pending queue; the mining reward
is the fixed constant 1.  Operations that can throw return the post-call
state next to the Except value, so the state at the moment an exception
escapes is part of the model.  The proof-of-work loop takes fuel; returning
none models the still-running loop, under which no ledger mutation has
happened (the loop works on a local block not yet appended). -/

structure Ledger where
  chain : List Block
  difficulty : Nat
  pending : List Transaction
deriving DecidableEq, Repr

/-- Fixed mining reward. -/
def miningReward : ℚ := 1

/-- Blockchain.createGenesisBlock: index 0, previous hash "0", no
transactions, nonce 0; the digest is computed at construction and then
assigned once more from calculateHash. -/
def createGenesisBlock (H : String → String) (now : Nat) : Block :=
  let block := mkBlock H 0 "0" [] 0 none now
  { block with hash := calculateHash H block }

/-- Blockchain constructor: chain seeded with the genesis block, difficulty
2, empty pending pool. -/
def initLedger (H : String → String) (now : Nat) : Ledger :=
  { chain := [createGenesisBlock H now], difficulty := 2, pending := [] }

/-- Blockchain.getLatestBlock (none models the thrown EmptyChain error). -/
def getLatestBlock (l : Ledger) : Option Block := l.chain.getLast?

/-- One iteration of the proof-of-work loop body: increment the nonce, then
recompute the digest over the updated block. -/
def mineStep (H : String → String) (b : Block) : Block :=
  let b1 : Block := { b with nonce := b.nonce + 1 }
  { b1 with hash := calculateHash H b1 }

/-- The difficulty target: a run of zero characters. -/
def zeroTarget (difficulty : Nat) : String := String.mk (List.replicate difficulty '0')

/-- Blockchain.mineBlock: loop until the digest's first difficulty
characters are all zero.  Fuel bounds the number of iterations still to
run; none is the loop that has not yet terminated. -/
def mineBlock (H : String → String) (difficulty : Nat) : Nat → Block → Option Block
  | fuel, b =>
    if b.hash.take difficulty = zeroTarget difficulty then some b
    else
      match fuel with
      | 0 => none
      | f + 1 => mineBlock H difficulty f (mineStep H b)

/-- Blockchain.createTransaction: reject an invalid transaction unless its
sender is the reward sentinel, then push it to the pending pool and return
the next block index.  The returned ledger is the state when the call ends,
whether it returns or throws. -/
def createTransaction (l : Ledger) (t : Transaction) :
    Ledger × Except String Nat :=
  if !txIsValid t ∧ t.fromAddress ≠ "MINING_REWARD" then
    (l, .error "Invalid transaction")
  else
    let l1 : Ledger := { l with pending := l.pending ++ [t] }
    match getLatestBlock l1 with
    | some latestBlock => (l1, .ok (latestBlock.index + 1))
    | none => (l1, .error "Chain is empty")

/-- Blockchain.minePendingTransactions: check the reward address, snapshot
the pending pool, append the system reward transaction, build the next
block over the current tip, run proof-of-work, append the mined block and
clear the pool. -/
def minePendingTransactions (H : String → String) (l : Ledger)
    (miningRewardAddress : String) (now : Nat) (txNonce : String) (fuel : Nat) :
    Ledger × Except String Unit :=
  if miningRewardAddress = "" then
    (l, .error "Mining reward address is required")
  else
    match mkTransaction H "MINING_REWARD" miningRewardAddress miningReward now txNonce with
    | .error e => (l, .error e)
    | .ok rewardTx =>
      let transactionsToMine := l.pending ++ [rewardTx]
      match getLatestBlock l with
      | none => (l, .error "Chain is empty")
      | some latestBlock =>
        let newBlock := mkBlock H (latestBlock.index + 1) latestBlock.hash
          transactionsToMine 0 none now
        match mineBlock H l.difficulty fuel newBlock with
        | none => (l, .error "mining in progress")
        | some mined =>
          ({ l with chain := l.chain ++ [mined], pending := [] }, .ok ())

/-- Per-transaction contribution to an address balance: debit when the
address is the sender, credit when it is the receiver. -/
def txContrib (address : String) (t : Transaction) : ℚ :=
  (if t.fromAddress = address then -t.amount else 0) +
    (if t.toAddress = address then t.amount else 0)

/-- Blockchain.getBalanceOfAddress: empty address is zero by convention;
otherwise scan every transaction of every block. -/
def getBalanceOfAddress (l : Ledger) (address : String) : ℚ :=
  if address = "" then 0
  else (l.chain.map (fun b => (b.transactions.map (txContrib address)).sum)).sum

/-- The per-position checks of Blockchain.isChainValid for the blocks after
genesis: block integrity, the link to the previous block's digest, the index
succession, and validity of every non-reward transaction. -/
def validRest (H : String → String) : Block → List Block → Bool
  | _, [] => true
  | prev, b :: bs =>
    blockIsValid H b &&
      decide (b.previousHash = prev.hash) &&
      decide (b.index = prev.index + 1) &&
      b.transactions.all
        (fun t => decide (t.fromAddress = "MINING_REWARD") || txIsValid t) &&
      validRest H b bs

/-- Blockchain.isChainValid: non-empty chain, strict genesis checks, then
the per-position checks along the rest of the chain. -/
def isChainValid (H : String → String) (l : Ledger) : Bool :=
  match l.chain with
  | [] => false
  | g :: rest =>
    (decide (g.index = 0) && decide (g.previousHash = "0") &&
      decide (g.transactions.length = 0) && blockIsValid H g) &&
      validRest H g rest

/-- Replace the transaction list of the block at a position, leaving its
stored digest untouched (the tamper scenario of the validity round-trip). -/
def tamperChain : List Block → Nat → List Transaction → List Block
  | [], _, _ => []
  | b :: bs, 0, txs => { b with transactions := txs } :: bs
  | b :: bs, i + 1, txs => b :: tamperChain bs i txs

/-- Run a sequence of mining calls, each with its own reward address,
timestamp, reward-transaction nonce and fuel; none as soon as one call does
not succeed. -/
def runMines (H : String → String) (l : Ledger) :
    List (String × Nat × String × Nat) → Option Ledger
  | [] => some l
  | (addr, now, nn, fuel) :: ps =>
    match minePendingTransactions H l addr now nn fuel with
    | (l1, .ok _) => runMines H l1 ps
    | (_, .error _) => none

/-! ## Basic facts about the operations -/

theorem calculateHash_hash_irrel (H : String → String) (b : Block) (x : String) :
    calculateHash H { b with hash := x } = calculateHash H b := rfl

theorem mkBlock_index (H : String → String) (i : Nat) (p : String)
    (txs : List Transaction) (n : Nat) (now : Nat) :
    (mkBlock H i p txs n none now).index = i := rfl

theorem mkBlock_previousHash (H : String → String) (i : Nat) (p : String)
    (txs : List Transaction) (n : Nat) (now : Nat) :
    (mkBlock H i p txs n none now).previousHash = p := rfl

theorem mkBlock_transactions (H : String → String) (i : Nat) (p : String)
    (txs : List Transaction) (n : Nat) (now : Nat) :
    (mkBlock H i p txs n none now).transactions = txs := rfl

theorem mkBlock_timestamp (H : String → String) (i : Nat) (p : String)
    (txs : List Transaction) (n : Nat) (now : Nat) :
    (mkBlock H i p txs n none now).timestamp = now := rfl

theorem mkBlock_none_hash (H : String → String) (i : Nat) (p : String)
    (txs : List Transaction) (n : Nat) (now : Nat) :
    (mkBlock H i p txs n none now).hash = calculateHash H (mkBlock H i p txs n none now) := rfl

theorem mkTransaction_ok {H : String → String} {f t : String} {a : ℚ} {now : Nat}
    {nn : String} {tx : Transaction} (h : mkTransaction H f t a now nn = .ok tx) :
    tx.fromAddress = f ∧ tx.toAddress = t ∧ tx.amount = a ∧ tx.timestamp = now ∧
      tx.nonce = nn ∧ tx.hash = tx.originalHash ∧ isValidAmount a = true ∧
      f ≠ "" ∧ t ≠ "" := by
  unfold mkTransaction at h
  split at h
  · exact absurd h (by simp)
  · split at h
    · exact absurd h (by simp)
    · next hv hadr =>
      simp at h
      push_neg at hadr
      subst h
      refine ⟨rfl, rfl, rfl, rfl, rfl, rfl, ?_, hadr.1, hadr.2⟩
      simpa using hv

theorem mkTransaction_ok_valid {H : String → String} {f t : String} {a : ℚ} {now : Nat}
    {nn : String} {tx : Transaction} (h : mkTransaction H f t a now nn = .ok tx) :
    txIsValid tx = true := by
  obtain ⟨hf, ht, ha, -, -, hh, hv, hf0, ht0⟩ := mkTransaction_ok h
  unfold txIsValid
  rw [ha, hv]
  simp only [Bool.not_true, Bool.false_eq_true, if_false]
  rw [hf, ht]
  rw [if_neg hf0, if_neg ht0]
  simpa using hh

theorem mineBlock_spec {H : String → String} {d : Nat} :
    ∀ {fuel : Nat} {b b2 : Block}, mineBlock H d fuel b = some b2 →
      b2.hash.take d = zeroTarget d ∧ b2.index = b.index ∧
        b2.previousHash = b.previousHash ∧ b2.transactions = b.transactions ∧
        b2.timestamp = b.timestamp ∧
        (b.hash = calculateHash H b → b2.hash = calculateHash H b2) := by
  intro fuel
  induction fuel with
  | zero =>
    intro b b2 h
    rw [mineBlock] at h
    split at h
    · next ht =>
      simp at h
      subst h
      exact ⟨ht, rfl, rfl, rfl, rfl, fun hh => hh⟩
    · exact absurd h (by simp)
  | succ f ih =>
    intro b b2 h
    rw [mineBlock] at h
    split at h
    · next ht =>
      simp at h
      subst h
      exact ⟨ht, rfl, rfl, rfl, rfl, fun hh => hh⟩
    · next ht =>
      obtain ⟨h1, h2, h3, h4, h5, h6⟩ := ih h
      refine ⟨h1, h2, h3, h4, h5, fun _ => h6 rfl⟩

/-- Successful mining decomposed: the reward transaction, the tip, and the
mined block, with the exact final state. -/
theorem mine_ok {H : String → String} {l : Ledger} {addr : String} {now : Nat}
    {nn : String} {fuel : Nat} {l2 : Ledger}
    (h : minePendingTransactions H l addr now nn fuel = (l2, .ok ())) :
    addr ≠ "" ∧ ∃ rewardTx latest mined,
      mkTransaction H "MINING_REWARD" addr miningReward now nn = .ok rewardTx ∧
      getLatestBlock l = some latest ∧
      mineBlock H l.difficulty fuel
        (mkBlock H (latest.index + 1) latest.hash (l.pending ++ [rewardTx]) 0 none now) =
        some mined ∧
      l2 = { l with chain := l.chain ++ [mined], pending := [] } := by
  unfold minePendingTransactions at h
  split at h
  · exact absurd h (by simp)
  · next haddr =>
    split at h
    · exact absurd h (by simp)
    · next rewardTx hmk =>
      split at h
      · exact absurd h (by simp)
      · next latest hlast =>
        dsimp only at h
        split at h
        · exact absurd h (by simp)
        · next mined hmine =>
          simp at h
          exact ⟨haddr, rewardTx, latest, mined, hmk, hlast, hmine, h.symm⟩

theorem createTransaction_chain (l : Ledger) (t : Transaction) :
    (createTransaction l t).1.chain = l.chain := by
  unfold createTransaction
  split
  · rfl
  · dsimp only
    split <;> rfl

theorem mine_state_cases (H : String → String) (l : Ledger) (addr : String)
    (now : Nat) (nn : String) (fuel : Nat) :
    (minePendingTransactions H l addr now nn fuel).1 = l ∨
      minePendingTransactions H l addr now nn fuel =
        ((minePendingTransactions H l addr now nn fuel).1, .ok ()) := by
  unfold minePendingTransactions
  split
  · exact Or.inl rfl
  · split
    · exact Or.inl rfl
    · split
      · exact Or.inl rfl
      · dsimp only
        split
        · exact Or.inl rfl
        · exact Or.inr rfl

theorem getLast?_eq_get {α : Type} :
    ∀ (c : List α), c ≠ [] → ∀ (hl : c.length - 1 < c.length),
      c.getLast? = some (c.get ⟨c.length - 1, hl⟩) := by
  intro c
  induction c with
  | nil => intro h; exact absurd rfl h
  | cons x t ih =>
    intro _ hl
    cases t with
    | nil => rfl
    | cons y t2 =>
      have h2 : (y :: t2) ≠ [] := by simp
      have hl2 : (y :: t2).length - 1 < (y :: t2).length := by simp
      rw [List.getLast?_cons_cons, ih h2 hl2]
      congr 1

theorem createGenesisBlock_index (H : String → String) (now : Nat) :
    (createGenesisBlock H now).index = 0 := rfl

theorem createGenesisBlock_previousHash (H : String → String) (now : Nat) :
    (createGenesisBlock H now).previousHash = "0" := rfl

theorem createGenesisBlock_transactions (H : String → String) (now : Nat) :
    (createGenesisBlock H now).transactions = [] := rfl

theorem createGenesisBlock_hash (H : String → String) (now : Nat) :
    (createGenesisBlock H now).hash = calculateHash H (createGenesisBlock H now) := rfl

/-! ## The structural chain invariant (claim C4)

Stated exactly as the specification words it: the chain is non-empty, the
block at position 0 is the genesis block, and every later position links to
its predecessor by stored digest and successor index. -/

def chainInv (c : List Block) : Prop :=
  c ≠ [] ∧
  (∀ h0 : 0 < c.length,
    (c.get ⟨0, h0⟩).index = 0 ∧ (c.get ⟨0, h0⟩).previousHash = "0" ∧
      (c.get ⟨0, h0⟩).transactions = []) ∧
  (∀ i : Nat, ∀ h : i + 1 < c.length,
    (c.get ⟨i + 1, h⟩).previousHash = (c.get ⟨i, Nat.lt_of_succ_lt h⟩).hash ∧
      (c.get ⟨i + 1, h⟩).index = (c.get ⟨i, Nat.lt_of_succ_lt h⟩).index + 1)

def chainInvariant (l : Ledger) : Prop := chainInv l.chain

theorem chainInvariant_init (H : String → String) (now : Nat) :
    chainInvariant (initLedger H now) := by
  refine ⟨by simp [initLedger], ?_, ?_⟩
  · intro h0
    exact ⟨rfl, rfl, rfl⟩
  · intro i h
    simp [initLedger] at h

theorem chainInvariant_submit (l : Ledger) (t : Transaction)
    (hl : chainInvariant l) : chainInvariant (createTransaction l t).1 := by
  rw [chainInvariant, createTransaction_chain]
  exact hl

theorem chainInvariant_mine (H : String → String) (l : Ledger) (addr : String)
    (now : Nat) (nn : String) (fuel : Nat) (hl : chainInvariant l) :
    chainInvariant (minePendingTransactions H l addr now nn fuel).1 := by
  rcases mine_state_cases H l addr now nn fuel with hc | hc
  · rw [hc]; exact hl
  · obtain ⟨haddr, rewardTx, latest, mined, hmk, hlast, hmine, hstate⟩ := mine_ok hc
    obtain ⟨hne, hgen, hlink⟩ := hl
    obtain ⟨hz, hidx, hprev, htxs, hts, hwf⟩ := mineBlock_spec hmine
    rw [mkBlock_index] at hidx
    rw [mkBlock_previousHash] at hprev
    have hlen : 0 < l.chain.length := List.length_pos.mpr hne
    have hlat : latest = l.chain.get ⟨l.chain.length - 1, by omega⟩ := by
      have hg := getLast?_eq_get l.chain hne (by omega)
      rw [getLatestBlock, hg] at hlast
      exact (Option.some.inj hlast).symm
    rw [hstate]
    rw [chainInvariant]
    refine ⟨by simp, ?_, ?_⟩
    · intro h0
      have h0l : 0 < l.chain.length := hlen
      have hg := hgen h0l
      have he : (l.chain ++ [mined]).get ⟨0, h0⟩ = l.chain.get ⟨0, h0l⟩ :=
        List.get_append 0 h0l
      rw [he]
      exact hg
    · intro i h
      simp only [List.length_append, List.length_cons, List.length_nil] at h
      by_cases hcase : i + 1 < l.chain.length
      · have hi : i < l.chain.length := Nat.lt_of_succ_lt hcase
        have he1 : (l.chain ++ [mined]).get ⟨i + 1, by simp; omega⟩ =
            l.chain.get ⟨i + 1, hcase⟩ := List.get_append (i + 1) hcase
        have he2 : (l.chain ++ [mined]).get ⟨i, by simp; omega⟩ =
            l.chain.get ⟨i, hi⟩ := List.get_append i hi
        rw [he1, he2]
        exact hlink i hcase
      · have hi : i + 1 = l.chain.length := by omega
        have hil : i < l.chain.length := by omega
        have he1 : (l.chain ++ [mined]).get ⟨i + 1, by simp; omega⟩ = mined :=
          List.get_of_append rfl hi.symm
        have he2 : (l.chain ++ [mined]).get ⟨i, by simp; omega⟩ =
            l.chain.get ⟨i, hil⟩ := List.get_append i hil
        rw [he1, he2]
        have hig : l.chain.get ⟨i, hil⟩ = latest := by
          rw [hlat]
          congr 1
          apply Fin.ext
          show i = l.chain.length - 1
          omega
        rw [hig]
        exact ⟨hprev, hidx⟩

/-! ## The validity invariant (claim C1)

GoodRest and GoodChain record what the three mutating operations actually
maintain: genesis shape, digest well-formedness of every block, links by
stored digest, successor indices, and validity of every transaction stored
in blocks or pending (reward transactions included, because Block.isValid
checks every contained transaction). -/

def GoodRest (H : String → String) : Block → List Block → Prop
  | _, [] => True
  | prev, b :: bs =>
    b.previousHash = prev.hash ∧ b.index = prev.index + 1 ∧
      b.hash = calculateHash H b ∧ (∀ t ∈ b.transactions, txIsValid t = true) ∧
      GoodRest H b bs

def GoodChain (H : String → String) : List Block → Prop
  | [] => False
  | g :: rest =>
    g.index = 0 ∧ g.previousHash = "0" ∧ g.transactions = [] ∧
      g.hash = calculateHash H g ∧ GoodRest H g rest

def GoodLedger (H : String → String) (l : Ledger) : Prop :=
  GoodChain H l.chain ∧ ∀ t ∈ l.pending, txIsValid t = true

theorem goodRest_append (H : String → String) :
    ∀ (g : Block) (rest : List Block) (nb la : Block),
      GoodRest H g rest → (g :: rest).getLast? = some la →
      nb.previousHash = la.hash → nb.index = la.index + 1 →
      nb.hash = calculateHash H nb → (∀ t ∈ nb.transactions, txIsValid t = true) →
      GoodRest H g (rest ++ [nb]) := by
  intro g rest
  induction rest generalizing g with
  | nil =>
    intro nb la _ hlast h1 h2 h3 h4
    have hla : la = g := by
      simp [List.getLast?] at hlast
      exact hlast.symm
    subst hla
    exact ⟨h1, h2, h3, h4, trivial⟩
  | cons b bs ih =>
    intro nb la hgood hlast h1 h2 h3 h4
    obtain ⟨g1, g2, g3, g4, g5⟩ := hgood
    rw [List.getLast?_cons_cons] at hlast
    exact ⟨g1, g2, g3, g4, ih b nb la g5 hlast h1 h2 h3 h4⟩

theorem validRest_of_good (H : String → String) :
    ∀ (prev : Block) (rest : List Block), GoodRest H prev rest →
      validRest H prev rest = true := by
  intro prev rest
  induction rest generalizing prev with
  | nil => intro _; rfl
  | cons b bs ih =>
    intro hgood
    obtain ⟨h1, h2, h3, h4, h5⟩ := hgood
    rw [validRest]
    have hb : blockIsValid H b = true := by
      rw [blockIsValid, if_neg (by simp [h3])]
      rw [List.all_eq_true]
      intro t ht
      exact h4 t ht
    have hall : b.transactions.all
        (fun t => decide (t.fromAddress = "MINING_REWARD") || txIsValid t) = true := by
      rw [List.all_eq_true]
      intro t ht
      simp [h4 t ht]
    rw [hb, hall, ih b h5]
    simp [h1, h2]

theorem goodLedger_chainValid (H : String → String) (l : Ledger)
    (hl : GoodLedger H l) : isChainValid H l = true := by
  obtain ⟨hchain, _⟩ := hl
  rw [isChainValid]
  rcases hc : l.chain with _ | ⟨g, rest⟩
  · rw [hc] at hchain
    exact absurd hchain (by rw [GoodChain]; exact fun x => x)
  · rw [hc] at hchain
    obtain ⟨h1, h2, h3, h4, h5⟩ := hchain
    have hb : blockIsValid H g = true := by
      rw [blockIsValid, if_neg (by simp [h4])]
      rw [List.all_eq_true]
      intro t ht
      rw [h3] at ht
      exact absurd ht (List.not_mem_nil t)
    dsimp only
    rw [hb, validRest_of_good H g rest h5]
    simp [h1, h2, h3]

theorem createTransaction_state_valid (l : Ledger) (t : Transaction)
    (ht : txIsValid t = true) :
    (createTransaction l t).1 = { l with pending := l.pending ++ [t] } := by
  rw [createTransaction, if_neg (by simp [ht])]
  dsimp only
  split <;> rfl

theorem goodLedger_init (H : String → String) (now : Nat) :
    GoodLedger H (initLedger H now) := by
  constructor
  · exact ⟨rfl, rfl, rfl, rfl, trivial⟩
  · intro t ht
    exact absurd ht (List.not_mem_nil t)

theorem goodLedger_submit (H : String → String) (l : Ledger) (t : Transaction)
    (ht : txIsValid t = true) (hl : GoodLedger H l) :
    GoodLedger H (createTransaction l t).1 := by
  rw [createTransaction_state_valid l t ht]
  obtain ⟨h1, h2⟩ := hl
  refine ⟨h1, ?_⟩
  intro u hu
  rcases List.mem_append.mp hu with hm | hm
  · exact h2 u hm
  · rw [List.mem_singleton.mp hm]
    exact ht

theorem goodLedger_mine (H : String → String) (l : Ledger) (addr : String)
    (now : Nat) (nn : String) (fuel : Nat) (hl : GoodLedger H l) :
    GoodLedger H (minePendingTransactions H l addr now nn fuel).1 := by
  rcases mine_state_cases H l addr now nn fuel with hc | hc
  · rw [hc]; exact hl
  · obtain ⟨haddr, rewardTx, latest, mined, hmk, hlast, hmine, hstate⟩ := mine_ok hc
    obtain ⟨hchain, hpend⟩ := hl
    obtain ⟨hz, hidx, hprev, htxs, hts, hwf⟩ := mineBlock_spec hmine
    rw [mkBlock_index] at hidx
    rw [mkBlock_previousHash] at hprev
    rw [mkBlock_transactions] at htxs
    have hhash : mined.hash = calculateHash H mined := hwf (mkBlock_none_hash H _ _ _ _ _)
    have htxval : ∀ t ∈ mined.transactions, txIsValid t = true := by
      rw [htxs]
      intro t0 ht0
      rcases List.mem_append.mp ht0 with hm | hm
      · exact hpend t0 hm
      · rw [List.mem_singleton.mp hm]
        exact mkTransaction_ok_valid hmk
    rw [hstate]
    constructor
    · rcases hcc : l.chain with _ | ⟨g, rest⟩
      · rw [hcc] at hchain
        exact absurd hchain (by rw [GoodChain]; exact fun x => x)
      · rw [hcc] at hchain
        obtain ⟨g1, g2, g3, g4, g5⟩ := hchain
        show GoodChain H ((g :: rest) ++ [mined])
        rw [List.cons_append]
        refine ⟨g1, g2, g3, g4, ?_⟩
        refine goodRest_append H g rest mined latest g5 ?_ hprev hidx hhash htxval
        rw [getLatestBlock, hcc] at hlast
        exact hlast
    · intro t0 ht0
      exact absurd ht0 (List.not_mem_nil t0)

/-- Ledger states produced only by initialization, submissions that pass
Transaction.isValid at submission time, and mining calls. -/
inductive ReachedValid (H : String → String) : Ledger → Prop
  | init (now : Nat) : ReachedValid H (initLedger H now)
  | submit (l : Ledger) (t : Transaction) (hl : ReachedValid H l)
      (ht : txIsValid t = true) : ReachedValid H (createTransaction l t).1
  | mine (l : Ledger) (addr : String) (now : Nat) (nn : String) (fuel : Nat)
      (hl : ReachedValid H l) :
      ReachedValid H (minePendingTransactions H l addr now nn fuel).1

theorem reachedValid_good (H : String → String) (l : Ledger)
    (h : ReachedValid H l) : GoodLedger H l := by
  induction h with
  | init now => exact goodLedger_init H now
  | submit l t hl ht ih => exact goodLedger_submit H l t ht ih
  | mine l addr now nn fuel hl ih => exact goodLedger_mine H l addr now nn fuel ih

/-! ## Tamper detection -/

theorem blockData_replace_txs (b : Block) (txs : List Transaction)
    (h : blockData { b with transactions := txs } = blockData b) :
    txs = b.transactions := by
  have h2 : natChars b.index ++ b.previousHash.data ++ natChars b.timestamp ++
      jsonTxsChars txs ++ natChars b.nonce =
      natChars b.index ++ b.previousHash.data ++ natChars b.timestamp ++
        jsonTxsChars b.transactions ++ natChars b.nonce :=
    congrArg String.data h
  exact jsonTxsChars_injective
    (List.append_cancel_left (List.append_cancel_right h2))

theorem blockIsValid_tampered (H : String → String)
    (hinj : Function.Injective H) (b : Block) (txs : List Transaction)
    (hwf : b.hash = calculateHash H b) (hne : txs ≠ b.transactions) :
    blockIsValid H { b with transactions := txs } = false := by
  rw [blockIsValid]
  rw [if_pos]
  show ({ b with transactions := txs } : Block).hash ≠ _
  intro he
  have hh : ({ b with transactions := txs } : Block).hash = b.hash := rfl
  rw [hh, hwf] at he
  have hd : blockData b = blockData { b with transactions := txs } := hinj he
  exact hne (blockData_replace_txs b txs hd.symm)

theorem validRest_false_of_bad (H : String → String) :
    ∀ (prev : Block) (bs : List Block) (b : Block), b ∈ bs →
      blockIsValid H b = false → validRest H prev bs = false := by
  intro prev bs
  induction bs generalizing prev with
  | nil =>
    intro b hb
    exact absurd hb (List.not_mem_nil b)
  | cons b2 bs2 ih =>
    intro b hb hbad
    rw [validRest]
    rcases List.mem_cons.mp hb with rfl | hm
    · rw [hbad]
      simp
    · rw [ih b2 b hm hbad]
      simp

theorem tamperChain_zero (b : Block) (bs : List Block) (txs : List Transaction) :
    tamperChain (b :: bs) 0 txs = { b with transactions := txs } :: bs := rfl

theorem tamperChain_succ (b : Block) (bs : List Block) (i : Nat)
    (txs : List Transaction) :
    tamperChain (b :: bs) (i + 1) txs = b :: tamperChain bs i txs := rfl

theorem tamperChain_mem : ∀ (c : List Block) (i : Nat) (txs : List Transaction)
    (h : i < c.length), { c.get ⟨i, h⟩ with transactions := txs } ∈ tamperChain c i txs := by
  intro c
  induction c with
  | nil =>
    intro i txs h
    simp at h
  | cons b bs ih =>
    intro i txs h
    cases i with
    | zero =>
      rw [tamperChain_zero]
      exact List.mem_cons_self _ _
    | succ j =>
      rw [tamperChain_succ]
      have hj : j < bs.length := by
        simp at h
        omega
      exact List.mem_cons_of_mem b (ih j txs hj)

theorem goodRest_mem_wf (H : String → String) :
    ∀ (prev : Block) (bs : List Block), GoodRest H prev bs →
      ∀ b ∈ bs, b.hash = calculateHash H b := by
  intro prev bs
  induction bs generalizing prev with
  | nil =>
    intro _ b hb
    exact absurd hb (List.not_mem_nil b)
  | cons b2 bs2 ih =>
    intro hg b hb
    obtain ⟨_, _, h3, _, h5⟩ := hg
    rcases List.mem_cons.mp hb with rfl | hm
    · exact h3
    · exact ih b2 h5 b hm

theorem isChainValid_cons (H : String → String) (g : Block) (rest : List Block)
    (diff : Nat) (pend : List Transaction) :
    isChainValid H { chain := g :: rest, difficulty := diff, pending := pend } =
      ((decide (g.index = 0) && decide (g.previousHash = "0") &&
        decide (g.transactions.length = 0) && blockIsValid H g) &&
        validRest H g rest) := rfl

/-- isChainValid of a ledger whose block at position i had its transaction
list replaced (digest not recomputed) is false, provided the original ledger
satisfied the maintained invariant and the digest function is injective. -/
theorem tamper_invalid (H : String → String) (hinj : Function.Injective H)
    (l : Ledger) (hgood : GoodLedger H l) (i : Nat) (txs : List Transaction)
    (hi : i < l.chain.length)
    (hne : txs ≠ (l.chain.get ⟨i, hi⟩).transactions) :
    isChainValid H { l with chain := tamperChain l.chain i txs } = false := by
  obtain ⟨hchain, -⟩ := hgood
  obtain ⟨c, diff, pend⟩ := l
  dsimp only at hchain hi hne ⊢
  cases c with
  | nil => exact absurd hchain (by rw [GoodChain]; exact fun x => x)
  | cons g rest =>
    obtain ⟨g1, g2, g3, g4, g5⟩ := hchain
    cases i with
    | zero =>
      have hne2 : txs ≠ g.transactions := hne
      rw [g3] at hne2
      rw [tamperChain_zero, isChainValid_cons]
      have hlen : txs.length ≠ 0 := by
        intro h0
        exact hne2 (List.length_eq_zero.mp h0)
      have hdec : decide (({ g with transactions := txs } : Block).transactions.length = 0) =
          false := by
        apply decide_eq_false
        show ¬txs.length = 0
        exact hlen
      rw [hdec]
      simp
    | succ j =>
      have hj : j < rest.length := by
        simp at hi
        omega
      have hne2 : txs ≠ (rest.get ⟨j, hj⟩).transactions := hne
      rw [tamperChain_succ, isChainValid_cons]
      have hwf : (rest.get ⟨j, hj⟩).hash = calculateHash H (rest.get ⟨j, hj⟩) :=
        goodRest_mem_wf H g rest g5 _ (List.get_mem rest _ _)
      have hbad := blockIsValid_tampered H hinj (rest.get ⟨j, hj⟩) txs hwf hne2
      have hmem := tamperChain_mem rest j txs hj
      rw [validRest_false_of_bad H g (tamperChain rest j txs) _ hmem hbad]
      simp

/-- Ledger states produced only by Initialize, SubmitTransaction and
MinePendingTransactions, with no restriction on the submitted transactions
beyond what createTransaction itself enforces. -/
inductive Reached (H : String → String) : Ledger → Prop
  | init (now : Nat) : Reached H (initLedger H now)
  | submit (l : Ledger) (t : Transaction) (hl : Reached H l) :
      Reached H (createTransaction l t).1
  | mine (l : Ledger) (addr : String) (now : Nat) (nn : String) (fuel : Nat)
      (hl : Reached H l) :
      Reached H (minePendingTransactions H l addr now nn fuel).1

/-! ## Concrete instances

H0 is an injective stand-in digest function under which difficulty-2 mining
succeeds immediately; it lets every hypothesis of the general theorems be
discharged on fully concrete ledgers. -/

def H0 : String → String := fun s => "00" ++ s

theorem H0_injective : Function.Injective H0 := by
  intro a b h
  have h2 : ("00").data ++ a.data = ("00").data ++ b.data := congrArg String.data h
  exact string_data_inj (List.append_cancel_left h2)

/-- A reward-sentinel transaction whose amount was changed through the
validated setter after construction: its live digest no longer matches its
original digest, so Transaction.isValid is false, yet createTransaction
accepts it because of the sentinel sender. -/
def txBad : Transaction :=
  match mkTransaction H0 "MINING_REWARD" "x" 5 0 "n" with
  | .ok t =>
    match setAmount H0 t 7 with
    | .ok t2 => t2
    | .error _ => t
  | .error _ =>
    { fromAddress := "", toAddress := "", amount := 0, timestamp := 0, nonce := "",
      hash := "", originalHash := "" }

/-- Ledger built only from Initialize, one SubmitTransaction and one
MinePendingTransactions call. -/
def ledgerBad : Ledger :=
  (minePendingTransactions H0
    (createTransaction (initLedger H0 0) txBad).1 "m" 1 "nn" 5).1

/-- Ledger built from Initialize followed by one mining call. -/
def ledgerMined : Ledger :=
  (minePendingTransactions H0 (initLedger H0 0) "m" 1 "n" 5).1

/-- Claim C1 (amended): for every ledger produced only by Initialize,
SubmitTransaction and MinePendingTransactions calls in which every submitted
transaction satisfies IsValid() at submission time, IsChainValid() returns
true; and for every such ledger, when the digest function is collision-free,
replacing any block's transaction list with a different list (without
recomputing that block's digest) makes IsChainValid() return false. -/
theorem C1_chain_validity_round_trip (H : String → String) (l : Ledger)
    (h : ReachedValid H l) :
    isChainValid H l = true ∧
      (Function.Injective H →
        ∀ (i : Nat) (txs : List Transaction) (hi : i < l.chain.length),
          txs ≠ (l.chain.get ⟨i, hi⟩).transactions →
          isChainValid H { l with chain := tamperChain l.chain i txs } = false) := by
  have hg := reachedValid_good H l h
  exact ⟨goodLedger_chainValid H l hg,
    fun hinj i txs hi hne => tamper_invalid H hinj l hg i txs hi hne⟩

/-- Claim C1 counterexample: the claim as stated is false.  ledgerBad is
produced only by Initialize, SubmitTransaction and MinePendingTransactions
(no external mutation), yet IsChainValid() returns false: SubmitTransaction
accepts the invalid reward-sentinel transaction txBad unconditionally, and
Block.isValid later rejects the block containing it. -/
theorem C1_counterexample :
    Reached H0 ledgerBad ∧ isChainValid H0 ledgerBad = false :=
  ⟨Reached.mine _ "m" 1 "nn" 5 (Reached.submit _ txBad (Reached.init 0)), by decide⟩

/-- Claim C1 witness: the amended theorem applied to a concrete mined
ledger, in both directions. -/
theorem C1_witness :
    isChainValid H0 ledgerMined = true ∧
      isChainValid H0
        { ledgerMined with chain := tamperChain ledgerMined.chain 1 [] } = false := by
  have h := C1_chain_validity_round_trip H0 ledgerMined
    (ReachedValid.mine _ "m" 1 "n" 5 (ReachedValid.init 0))
  exact ⟨h.1, h.2 H0_injective 1 [] (by decide) (by decide)⟩

/-- Claim C4: the structural chain invariant — non-empty chain, genesis
(index 0, previousHash "0", empty transaction list) at position 0, and for
every later position previousHash equal to the predecessor's stored digest
and index equal to the predecessor's index plus one — holds after Initialize
and is preserved by SubmitTransaction and MinePendingTransactions.
GetBalance and IsChainValid are pure queries in the model (they return a
number respectively a boolean and leave the ledger untouched), so they
preserve the invariant by construction. -/
theorem C4_structural_invariant (H : String → String) :
    (∀ now, chainInvariant (initLedger H now)) ∧
    (∀ l t, chainInvariant l → chainInvariant (createTransaction l t).1) ∧
    (∀ l addr now nn fuel, chainInvariant l →
      chainInvariant (minePendingTransactions H l addr now nn fuel).1) :=
  ⟨chainInvariant_init H, chainInvariant_submit,
    fun l addr now nn fuel hl => chainInvariant_mine H l addr now nn fuel hl⟩

/-- Claim C4 witness: the invariant carried through a concrete Initialize,
SubmitTransaction, MinePendingTransactions sequence. -/
theorem C4_witness :
    chainInvariant (minePendingTransactions H0
      (createTransaction (initLedger H0 0) txBad).1 "m" 1 "nn" 5).1 :=
  (C4_structural_invariant H0).2.2 _ "m" 1 "nn" 5
    ((C4_structural_invariant H0).2.1 _ txBad ((C4_structural_invariant H0).1 0))

/-- Claim C5: with the genesis block present (the ambient invariant of claim
C4), SubmitTransaction throws InvalidTransaction exactly when the
transaction fails IsValid() and its sender is not the reward sentinel; a
sentinel-sender transaction is accepted unconditionally; and whenever the
call throws, the ledger — the pending queue included — is exactly as before
the call. -/
theorem C5_submit_contract (l : Ledger) (t : Transaction) (hne : l.chain ≠ []) :
    ((createTransaction l t).2 = .error "Invalid transaction" ↔
      (txIsValid t = false ∧ t.fromAddress ≠ "MINING_REWARD")) ∧
    (t.fromAddress = "MINING_REWARD" → ∃ n, (createTransaction l t).2 = .ok n) ∧
    (∀ e, (createTransaction l t).2 = .error e → (createTransaction l t).1 = l) := by
  have hlast : ∃ b, l.chain.getLast? = some b :=
    ⟨_, getLast?_eq_get l.chain hne (by
      have := List.length_pos.mpr hne
      omega)⟩
  obtain ⟨b, hb⟩ := hlast
  by_cases hcond : (!txIsValid t) = true ∧ ¬(t.fromAddress = "MINING_REWARD")
  · rw [createTransaction, if_pos hcond]
    refine ⟨?_, ?_, ?_⟩
    · simp only [true_iff]
      exact ⟨by simpa using hcond.1, hcond.2⟩
    · intro hs
      exact absurd hs hcond.2
    · intro e _
      rfl
  · have h2 : (createTransaction l t).2 = .ok (b.index + 1) := by
      rw [createTransaction, if_neg hcond]
      dsimp only
      rw [getLatestBlock]
      show (match l.chain.getLast? with
        | some latestBlock =>
          ({ l with pending := l.pending ++ [t] }, Except.ok (latestBlock.index + 1))
        | none => ({ l with pending := l.pending ++ [t] },
            Except.error "Chain is empty")).2 = _
      rw [hb]
    refine ⟨?_, ?_, ?_⟩
    · rw [h2]
      constructor
      · intro hx
        exact absurd hx (by simp)
      · intro hx
        exfalso
        exact hcond ⟨by simp [hx.1], hx.2⟩
    · intro _
      exact ⟨b.index + 1, h2⟩
    · intro e he
      rw [h2] at he
      exact absurd he (by simp)

/-- Claim C5 witness: the contract applied to the fresh ledger and the
invalid sentinel transaction, which is accepted unconditionally. -/
theorem C5_witness :
    ((createTransaction (initLedger H0 0) txBad).2 = .error "Invalid transaction" ↔
      (txIsValid txBad = false ∧ txBad.fromAddress ≠ "MINING_REWARD")) ∧
    (txBad.fromAddress = "MINING_REWARD" →
      ∃ n, (createTransaction (initLedger H0 0) txBad).2 = .ok n) ∧
    (∀ e, (createTransaction (initLedger H0 0) txBad).2 = .error e →
      (createTransaction (initLedger H0 0) txBad).1 = initLedger H0 0) :=
  C5_submit_contract (initLedger H0 0) txBad (by decide)

/-- Claim C6: with a valid amount, Transaction construction fails with
MissingAddress exactly when the sender or the receiver is the empty string;
the reward-sentinel sender is a non-empty string, so it passes the
sender-emptiness check and a reward transaction needs only a non-empty
receiver to construct. -/
theorem C6_missing_address (H : String → String) (f t2 : String) (a : ℚ)
    (now : Nat) (nn : String) (hv : isValidAmount a = true) :
    ((mkTransaction H f t2 a now nn =
        .error "Both fromAddress and toAddress are required") ↔ (f = "" ∨ t2 = "")) ∧
    (f = "MINING_REWARD" → t2 ≠ "" → ∃ tx, mkTransaction H f t2 a now nn = .ok tx) := by
  rw [mkTransaction, if_neg (by simp [hv])]
  by_cases hadr : f = "" ∨ t2 = ""
  · rw [if_pos hadr]
    refine ⟨by simp [hadr], ?_⟩
    intro hf ht
    rcases hadr with h | h
    · rw [hf] at h
      exact absurd h (by simp)
    · exact absurd h ht
  · rw [if_neg hadr]
    refine ⟨?_, ?_⟩
    · constructor
      · intro hx
        exact absurd hx (by simp)
      · intro hx
        exact absurd hx hadr
    · intro _ _
      exact ⟨_, rfl⟩

/-- Claim C6 witness: a reward transaction constructed with the sentinel
sender and a non-empty receiver, and the error equivalence at those inputs. -/
theorem C6_witness :
    ((mkTransaction H0 "MINING_REWARD" "x" 5 0 "n" =
        .error "Both fromAddress and toAddress are required") ↔
      (("MINING_REWARD" : String) = "" ∨ ("x" : String) = "")) ∧
    (("MINING_REWARD" : String) = "MINING_REWARD" → ("x" : String) ≠ "" →
      ∃ tx, mkTransaction H0 "MINING_REWARD" "x" 5 0 "n" = .ok tx) :=
  C6_missing_address H0 "MINING_REWARD" "x" 5 0 "n" (by decide)

/-- Claim C10: a Block constructed with the empty string supplied as the
pre-computed digest argument stores the digest computed over its own fields,
exactly as if the argument had been absent. -/
theorem C10_empty_digest_argument (H : String → String) (i : Nat) (p : String)
    (txs : List Transaction) (n : Nat) (now : Nat) :
    (mkBlock H i p txs n (some "") now).hash =
        calculateHash H (mkBlock H i p txs n (some "") now) ∧
      mkBlock H i p txs n (some "") now = mkBlock H i p txs n none now := by
  constructor
  · rfl
  · rfl

theorem mine_appends {H : String → String} {l : Ledger} {addr : String}
    {now : Nat} {nn : String} {fuel : Nat} {l2 : Ledger}
    (h : minePendingTransactions H l addr now nn fuel = (l2, .ok ())) :
    ∃ b, l2.chain = l.chain ++ [b] ∧
      b.transactions.length = l.pending.length + 1 ∧ l2.pending = [] ∧
      b.hash.take l.difficulty = zeroTarget l.difficulty ∧
      b.hash = calculateHash H b := by
  obtain ⟨haddr, rewardTx, latest, mined, hmk, hlast, hmine, hstate⟩ := mine_ok h
  obtain ⟨hz, hidx, hprev, htxs, hts, hwf⟩ := mineBlock_spec hmine
  rw [mkBlock_transactions] at htxs
  refine ⟨mined, by rw [hstate], ?_, by rw [hstate],
    hz, hwf (mkBlock_none_hash H _ _ _ _ _)⟩
  rw [htxs]
  simp

theorem runMines_length (H : String → String) :
    ∀ (ps : List (String × Nat × String × Nat)) (l l2 : Ledger),
      runMines H l ps = some l2 → l2.chain.length = l.chain.length + ps.length := by
  intro ps
  induction ps with
  | nil =>
    intro l l2 h
    rw [runMines] at h
    simp at h
    rw [← h]
    simp
  | cons p ps2 ih =>
    intro l l2 h
    obtain ⟨addr, now, nn, fuel⟩ := p
    rw [runMines] at h
    rcases hm : minePendingTransactions H l addr now nn fuel with ⟨l1, r⟩
    rw [hm] at h
    cases r with
    | error e => exact absurd h (by simp)
    | ok u =>
      cases u
      have h1 := ih l1 l2 h
      obtain ⟨b, hb, -, -, -, -⟩ := mine_appends hm
      rw [h1, hb]
      simp
      omega

/-- Claim C2: every successful MinePendingTransactions call appends exactly
one block, that block holds exactly the number of transactions that were
pending at the start of the call plus one (the reward transaction), the
pending queue is empty afterwards, and the call carries no return value
(Unit); consequently, after N successful mining calls starting from a fresh
ledger the chain length is N + 1. -/
theorem C2_mining_growth (H : String → String) :
    (∀ (l : Ledger) (addr : String) (now : Nat) (nn : String) (fuel : Nat)
      (l2 : Ledger),
      minePendingTransactions H l addr now nn fuel = (l2, .ok ()) →
      ∃ b, l2.chain = l.chain ++ [b] ∧
        b.transactions.length = l.pending.length + 1 ∧ l2.pending = []) ∧
    (∀ (now0 : Nat) (ps : List (String × Nat × String × Nat)) (l2 : Ledger),
      runMines H (initLedger H now0) ps = some l2 →
      l2.chain.length = ps.length + 1) := by
  constructor
  · intro l addr now nn fuel l2 h
    obtain ⟨b, h1, h2, h3, -, -⟩ := mine_appends h
    exact ⟨b, h1, h2, h3⟩
  · intro now0 ps l2 h
    have hr := runMines_length H ps (initLedger H now0) l2 h
    have hinit : (initLedger H now0).chain.length = 1 := rfl
    omega

/-- Mining parameters for two consecutive calls. -/
def psTwo : List (String × Nat × String × Nat) := [("m", 1, "n", 5), ("m2", 2, "n2", 5)]

/-- The ledger after running both calls of psTwo from a fresh ledger. -/
def ledgerTwice : Ledger :=
  match runMines H0 (initLedger H0 0) psTwo with
  | some l => l
  | none => initLedger H0 0

/-- Claim C2 witness: one concrete successful call appending one block with
exactly one (reward) transaction, and two concrete calls reaching chain
length 3. -/
theorem C2_witness :
    (∃ b, ledgerMined.chain = (initLedger H0 0).chain ++ [b] ∧
      b.transactions.length = (initLedger H0 0).pending.length + 1 ∧
      ledgerMined.pending = []) ∧
    ledgerTwice.chain.length = psTwo.length + 1 :=
  ⟨(C2_mining_growth H0).1 (initLedger H0 0) "m" 1 "n" 5 ledgerMined (by rfl),
    (C2_mining_growth H0).2 0 psTwo ledgerTwice (by decide)⟩

/-- Claim C3: every block appended by a successful MinePendingTransactions
call has a stored digest beginning with at least `difficulty` zero
characters, the stored digest equals ComputeDigest() of the block at the
moment mining finishes, and the ledger's configured difficulty is 2 at
initialization. -/
theorem C3_proof_of_work (H : String → String) :
    (∀ (l : Ledger) (addr : String) (now : Nat) (nn : String) (fuel : Nat)
      (l2 : Ledger),
      minePendingTransactions H l addr now nn fuel = (l2, .ok ()) →
      ∃ b, l2.chain = l.chain ++ [b] ∧
        b.hash.take l.difficulty = zeroTarget l.difficulty ∧
        b.hash = calculateHash H b) ∧
    (∀ now, (initLedger H now).difficulty = 2) := by
  constructor
  · intro l addr now nn fuel l2 h
    obtain ⟨b, h1, -, -, h4, h5⟩ := mine_appends h
    exact ⟨b, h1, h4, h5⟩
  · intro now
    rfl

/-- Claim C3 witness: the proof-of-work conformance of the concrete mined
block under the difficulty configured by Initialize. -/
theorem C3_witness :
    ∃ b, ledgerMined.chain = (initLedger H0 0).chain ++ [b] ∧
      b.hash.take (initLedger H0 0).difficulty =
        zeroTarget (initLedger H0 0).difficulty ∧
      b.hash = calculateHash H0 b :=
  (C3_proof_of_work H0).1 (initLedger H0 0) "m" 1 "n" 5 ledgerMined (by rfl)

theorem blockData_data (b : Block) :
    (blockData b).data =
      natChars b.index ++ b.previousHash.data ++ natChars b.timestamp ++
        jsonTxsChars b.transactions ++ natChars b.nonce := rfl

/-- Claim C7 (amended): Block.ComputeDigest hashes the undelimited
concatenation of (index-as-text, previousHash, timestamp-as-text, JSON
serialization of the transaction sequence, nonce-as-text).  The
serialization is order-preserving and field-complete in the single-field
sense: two blocks that differ in exactly one of the five fields — in
particular, whose transaction sequences differ, a reordering included —
feed different strings to the hash function.  Because no delimiter
separates the fields, simultaneous changes to adjacent fields can feed the
identical string to the hash (see the counterexample), so the claim's
universal two-block form does not hold. -/
theorem C7_digest_serialization (b b2 : Block) :
    (b2.previousHash = b.previousHash → b2.timestamp = b.timestamp →
      b2.transactions = b.transactions → b2.nonce = b.nonce →
      b2.index ≠ b.index → blockData b2 ≠ blockData b) ∧
    (b2.index = b.index → b2.timestamp = b.timestamp →
      b2.transactions = b.transactions → b2.nonce = b.nonce →
      b2.previousHash ≠ b.previousHash → blockData b2 ≠ blockData b) ∧
    (b2.index = b.index → b2.previousHash = b.previousHash →
      b2.transactions = b.transactions → b2.nonce = b.nonce →
      b2.timestamp ≠ b.timestamp → blockData b2 ≠ blockData b) ∧
    (b2.index = b.index → b2.previousHash = b.previousHash →
      b2.timestamp = b.timestamp → b2.nonce = b.nonce →
      b2.transactions ≠ b.transactions → blockData b2 ≠ blockData b) ∧
    (b2.index = b.index → b2.previousHash = b.previousHash →
      b2.timestamp = b.timestamp → b2.transactions = b.transactions →
      b2.nonce ≠ b.nonce → blockData b2 ≠ blockData b) := by
  refine ⟨?_, ?_, ?_, ?_, ?_⟩
  · intro h1 h2 h3 h4 hne h
    have hl := congrArg String.data h
    rw [blockData_data, blockData_data, h1, h2, h3, h4] at hl
    simp only [List.append_assoc] at hl
    exact hne (natChars_injective (List.append_cancel_right hl))
  · intro h1 h2 h3 h4 hne h
    have hl := congrArg String.data h
    rw [blockData_data, blockData_data, h1, h2, h3, h4] at hl
    simp only [List.append_assoc] at hl
    have hl2 := List.append_cancel_left hl
    exact hne (string_data_inj (List.append_cancel_right hl2))
  · intro h1 h2 h3 h4 hne h
    have hl := congrArg String.data h
    rw [blockData_data, blockData_data, h1, h2, h3, h4] at hl
    simp only [List.append_assoc] at hl
    have hl2 := List.append_cancel_left (List.append_cancel_left hl)
    exact hne (natChars_injective (List.append_cancel_right hl2))
  · intro h1 h2 h3 h4 hne h
    have hl := congrArg String.data h
    rw [blockData_data, blockData_data, h1, h2, h3, h4] at hl
    simp only [List.append_assoc] at hl
    have hl2 := List.append_cancel_left
      (List.append_cancel_left (List.append_cancel_left hl))
    exact hne (jsonTxsChars_injective (List.append_cancel_right hl2))
  · intro h1 h2 h3 h4 hne h
    have hl := congrArg String.data h
    rw [blockData_data, blockData_data, h1, h2, h3, h4] at hl
    simp only [List.append_assoc] at hl
    have hl2 := List.append_cancel_left (List.append_cancel_left
      (List.append_cancel_left (List.append_cancel_left hl)))
    exact hne (natChars_injective hl2)

/-- Block with index 1 and previousHash "2x". -/
def blockA : Block :=
  { index := 1, timestamp := 3, transactions := [], previousHash := "2x",
    hash := "", nonce := 4 }

/-- Block with index 12 and previousHash "x"; all other fields as blockA. -/
def blockB : Block :=
  { index := 12, timestamp := 3, transactions := [], previousHash := "x",
    hash := "", nonce := 4 }

/-- Claim C7 counterexample: the claim as stated is false.  blockA and
blockB have different (index, previousHash, timestamp, transactions, nonce)
tuples, yet the undelimited concatenation feeds the identical string
"12x3[]4" to the hash function, so the digests agree for any digest
function — here shown for H0. -/
theorem C7_counterexample :
    (blockA.index, blockA.previousHash, blockA.timestamp, blockA.transactions,
        blockA.nonce) ≠
      (blockB.index, blockB.previousHash, blockB.timestamp, blockB.transactions,
        blockB.nonce) ∧
    blockData blockA = blockData blockB ∧
    calculateHash H0 blockA = calculateHash H0 blockB := by
  refine ⟨by decide, by decide, by decide⟩

/-- Claim C7 witness: the amended single-field sensitivity applied to two
concrete blocks differing only in the nonce. -/
theorem C7_witness :
    blockData { blockA with nonce := 5 } ≠ blockData blockA :=
  (C7_digest_serialization blockA { blockA with nonce := 5 }).2.2.2.2
    rfl rfl rfl rfl (by decide)

theorem txContrib_sum (S : Finset String) (t : Transaction)
    (hf : t.fromAddress ∈ S) (ht : t.toAddress ∈ S) :
    S.sum (fun a => txContrib a t) = 0 := by
  unfold txContrib
  rw [Finset.sum_add_distrib]
  rw [Finset.sum_ite_eq S t.fromAddress (fun _ => -t.amount)]
  rw [Finset.sum_ite_eq S t.toAddress (fun _ => t.amount)]
  rw [if_pos hf, if_pos ht]
  ring

theorem finset_sum_list_sum {α : Type} (S : Finset String) (f : String → α → ℚ) :
    ∀ (xs : List α),
      S.sum (fun a => (xs.map (f a)).sum) =
        (xs.map (fun x => S.sum (fun a => f a x))).sum := by
  intro xs
  induction xs with
  | nil => simp
  | cons x xs2 ih =>
    simp only [List.map_cons, List.sum_cons]
    rw [Finset.sum_add_distrib, ih]

theorem txContrib_none (R : String) (t : Transaction)
    (hf : t.fromAddress ≠ R) (ht : t.toAddress ≠ R) : txContrib R t = 0 := by
  unfold txContrib
  rw [if_neg hf, if_neg ht]
  ring

/-- Claim C8: for every chain whose blocks contain only transactions among
a closed set of (non-empty, non-sentinel) addresses and no reward
transactions, the sum of GetBalance over the addresses is exactly 0. -/
theorem C8_balance_conservation (l : Ledger) (S : Finset String)
    (hS : ∀ b ∈ l.chain, ∀ t ∈ b.transactions,
      t.fromAddress ∈ S ∧ t.toAddress ∈ S ∧ t.fromAddress ≠ "" ∧
        t.toAddress ≠ "" ∧ t.fromAddress ≠ "MINING_REWARD") :
    S.sum (fun a => getBalanceOfAddress l a) = 0 := by
  have hg : ∀ a ∈ S, getBalanceOfAddress l a =
      (l.chain.map (fun b => (b.transactions.map (txContrib a)).sum)).sum := by
    intro a _
    unfold getBalanceOfAddress
    by_cases ha : a = ""
    · rw [if_pos ha]
      subst ha
      symm
      apply List.sum_eq_zero
      intro x hx
      rcases List.mem_map.mp hx with ⟨b, hb, rfl⟩
      apply List.sum_eq_zero
      intro y hy
      rcases List.mem_map.mp hy with ⟨t, htm, rfl⟩
      obtain ⟨-, -, hf, ht2, -⟩ := hS b hb t htm
      exact txContrib_none "" t hf ht2
    · rw [if_neg ha]
  rw [Finset.sum_congr rfl hg]
  rw [finset_sum_list_sum]
  apply List.sum_eq_zero
  intro x hx
  rcases List.mem_map.mp hx with ⟨b, hb, rfl⟩
  rw [finset_sum_list_sum]
  apply List.sum_eq_zero
  intro y hy
  rcases List.mem_map.mp hy with ⟨t, htm, rfl⟩
  obtain ⟨hf, ht2, -, -, -⟩ := hS b hb t htm
  exact txContrib_sum S t hf ht2

/-- A transfer of 100 from address a to address b, with stored digests
equal (as the constructor produces them). -/
def txAB : Transaction :=
  { fromAddress := "a", toAddress := "b", amount := 100, timestamp := 0,
    nonce := "n", hash := "h", originalHash := "h" }

/-- The single block of ledgerAB. -/
def blockAB : Block :=
  { index := 0, timestamp := 0, transactions := [txAB],
    previousHash := "0", hash := "", nonce := 0 }

/-- A one-block ledger holding only txAB. -/
def ledgerAB : Ledger :=
  { chain := [blockAB], difficulty := 2, pending := [] }

/-- Claim C8 witness: balance conservation over the two addresses of the
concrete one-transfer ledger. -/
theorem C8_witness :
    ({"a", "b"} : Finset String).sum (fun a => getBalanceOfAddress ledgerAB a) = 0 :=
  C8_balance_conservation ledgerAB {"a", "b"} (by decide)

/-- Claim C9 (amended): after a successful MinePendingTransactions(R) call
in which R occurs in no pending transaction as sender or receiver and R is
not the reward sentinel, GetBalance(R) grows by exactly the fixed mining
reward 1, independent of how many ordinary transactions were mined. -/
theorem C9_reward_accounting (H : String → String) (l : Ledger) (R : String)
    (now : Nat) (nn : String) (fuel : Nat) (l2 : Ledger)
    (h : minePendingTransactions H l R now nn fuel = (l2, .ok ()))
    (hp : ∀ t ∈ l.pending, t.fromAddress ≠ R ∧ t.toAddress ≠ R)
    (hs : R ≠ "MINING_REWARD") :
    getBalanceOfAddress l2 R = getBalanceOfAddress l R + 1 := by
  obtain ⟨haddr, rewardTx, latest, mined, hmk, hlast, hmine, hstate⟩ := mine_ok h
  obtain ⟨-, -, -, htxs, -, -⟩ := mineBlock_spec hmine
  rw [mkBlock_transactions] at htxs
  obtain ⟨hf, ht, ha, -, -, -, -, -, -⟩ := mkTransaction_ok hmk
  rw [hstate]
  unfold getBalanceOfAddress
  rw [if_neg haddr, if_neg haddr]
  dsimp only
  rw [List.map_append, List.sum_append]
  have hmined : (([mined].map
      (fun b => (b.transactions.map (txContrib R)).sum)).sum) = 1 := by
    simp only [List.map_cons, List.map_nil, List.sum_cons, List.sum_nil, add_zero]
    rw [htxs, List.map_append, List.sum_append]
    have hzero : ((l.pending.map (txContrib R)).sum) = 0 := by
      apply List.sum_eq_zero
      intro y hy
      rcases List.mem_map.mp hy with ⟨t, htm, rfl⟩
      obtain ⟨hf2, ht2⟩ := hp t htm
      exact txContrib_none R t hf2 ht2
    rw [hzero]
    have hrw : txContrib R rewardTx = 1 := by
      unfold txContrib
      rw [hf, ht]
      rw [if_neg (fun he => hs he.symm), if_pos rfl, ha]
      show 0 + miningReward = 1
      rw [miningReward]
      ring
    simp [hrw]
  rw [hmined]

/-- An ordinary transfer of 100 from address a to the miner address R,
built by the Transaction constructor. -/
def txAtoR : Transaction :=
  match mkTransaction H0 "a" "R" 100 0 "n" with
  | .ok t => t
  | .error _ =>
    { fromAddress := "", toAddress := "", amount := 0, timestamp := 0,
      nonce := "", hash := "", originalHash := "" }

/-- Fresh ledger with txAtoR pending. -/
def ledgerC9 : Ledger := (createTransaction (initLedger H0 0) txAtoR).1

/-- ledgerC9 after mining with reward address R. -/
def ledgerC9mined : Ledger := (minePendingTransactions H0 ledgerC9 "R" 1 "nn" 5).1

/-- Claim C9 counterexample: the claim as stated is false.  With the
pending transfer of 100 to R, the successful mining call with reward
address R raises GetBalance(R) by 101, not by the fixed reward 1. -/
theorem C9_counterexample :
    (minePendingTransactions H0 ledgerC9 "R" 1 "nn" 5).2 = Except.ok () ∧
      getBalanceOfAddress ledgerC9mined "R" ≠
        getBalanceOfAddress ledgerC9 "R" + 1 := by
  refine ⟨by rfl, by with_unfolding_all decide⟩

/-- Claim C9 witness: the amended reward accounting on a fresh ledger with
an empty pending queue. -/
theorem C9_witness :
    getBalanceOfAddress ledgerMined "m" =
      getBalanceOfAddress (initLedger H0 0) "m" + 1 :=
  C9_reward_accounting H0 (initLedger H0 0) "m" 1 "n" 5 ledgerMined
    (by rfl) (by decide) (by decide)

end BlockchainTS
